import Mathlib

/-!
Verification of the cross-allergen scoring core (`cross_allergen.py`).

The embedding below translates the scoring engine into Lean:

* Python strings become `String` (residue strings are ASCII protein letters,
  so `Char.toUpper`-based uppercasing agrees with Python's `str.upper`);
* Python floats become `ℚ` (every quantity produced by the engine is a
  rational combination of edit distances and the constants 0.1 and 0.8);
* a Python worker that may raise becomes `Except String`;
* `edlib.align(sub, target, mode='HW', task='distance')` is the
  semi-global (infix) edit distance, embedded as a dynamic program;
  with `task='distance'` and no distance cap, edlib never reports the
  sentinel `-1`, so the distance is total here.
-/

namespace CrossAllergen

/-- Clamp an integer index to `[0, n]` the way Python slice bounds are
clamped: negative indices count from the end, then the result is clamped
into the valid range. -/
def pyClamp (n : Nat) (i : Int) : Nat :=
  (min (max (if i < 0 then i + n else i) 0) (n : Int)).toNat

/-- Python slice `l[a:b]` on a list of characters. -/
def pySliceList (l : List Char) (a b : Int) : List Char :=
  (l.take (pyClamp l.length b)).drop (pyClamp l.length a)

/-- Python slice `s[a:b]` on a string. -/
def pySlice (s : String) (a b : Int) : String :=
  String.mk (pySliceList s.data a b)

/-- Python `str.upper()` restricted to the ASCII residue alphabet:
`Char.toUpper` mapped over the characters (written structurally on the
character list so that concrete instances evaluate). -/
def pyUpper (s : String) : String :=
  String.mk (s.data.map Char.toUpper)

/-- Helper for `pySplitPipe`: accumulate the current field (reversed). -/
def splitPipeAux (acc : List Char) : List Char → List (List Char)
  | [] => [acc.reverse]
  | c :: cs =>
      if c = '|' then acc.reverse :: splitPipeAux [] cs
      else splitPipeAux (c :: acc) cs

/-- Python `s.split("|")` (the source only ever splits identifiers on the
single character `"|"`): fields between pipes, keeping empty fields, and
`[""]` for the empty string. -/
def pySplitPipe (s : String) : List String :=
  (splitPipeAux [] s.data).map String.mk

/-- Python `str.strip()`: drop whitespace from both ends. -/
def pyStrip (s : String) : String :=
  String.mk (((s.data.dropWhile Char.isWhitespace).reverse.dropWhile
    Char.isWhitespace).reverse)

/-- Python substring containment `p in s` on character lists. -/
def isSubstrList (p s : List Char) : Bool :=
  (List.range (s.length + 1)).any (fun j => decide ((s.drop j).take p.length = p))

/-- Python substring containment `p in s`. -/
def isSubstr (p s : String) : Bool :=
  isSubstrList p.data s.data

/-- `count_substring_hits` (source lines 78–87): the source loops
`target.find(subseq, start)` advancing `start` by one past each hit, which
enumerates exactly the start positions of (possibly overlapping)
occurrences of `subseq` in `target`; we count those positions directly. -/
def count_substring_hits (subseq target : String) : Nat :=
  ((List.range (target.length + 1)).filter
    (fun j => decide ((target.data.drop j).take subseq.length = subseq.data))).length

/-! ### Semi-global (infix) edit distance

`edlib.align(p, t, mode='HW')`: gaps before and after `p`'s match region
inside `t` are free.  Standard DP: `D[0][j] = 0`, `D[i][0] = i`,
`D[i][j] = min (D[i-1][j]+1) (D[i][j-1]+1) (D[i-1][j-1] + cost)`,
answer `min_j D[|p|][j]`. -/

/-- One DP row past its first cell: `diag :: prevRest` walks the previous
row, `left` is the cell just written in the current row. -/
def rowAux (pc : Char) : List Char → List Nat → Nat → List Nat
  | tc :: ts, diag :: up :: ps, left =>
      let cell := min (min (up + 1) (left + 1)) (diag + (if pc = tc then 0 else 1))
      cell :: rowAux pc ts (up :: ps) cell
  | _, _, _ => []

/-- Row `i` of the DP table from row `i - 1`. -/
def nextRow (pc : Char) (t : List Char) (prev : List Nat) (i : Nat) : List Nat :=
  i :: rowAux pc t prev i

/-- Fold the pattern through the DP, returning the last row. -/
def dpRows (t : List Char) : List Char → List Nat → Nat → List Nat
  | [], prev, _ => prev
  | pc :: ps, prev, i => dpRows t ps (nextRow pc t prev (i + 1)) (i + 1)

/-- Minimum of a list of naturals (`0` for the empty list, which does not
arise: DP rows are nonempty). -/
def minList : List Nat → Nat
  | [] => 0
  | x :: xs => xs.foldl min x

/-- Semi-global edit distance of pattern `p` inside text `t`
(`edlib.align(p, t, mode='HW', task='distance')`). -/
def semiHW (p t : List Char) : Nat :=
  minList (dpRows t p (List.replicate (t.length + 1) 0) 0)

/-! ### Window scanning -/

/-- One step of `sliding_window_identity_fast` (source lines 24–33): the
state is `(best, stopped)`; the source returns as soon as `best` reaches
`1.0`, modelled by the `stopped` flag freezing the state.  (The edlib `-1`
sentinel branch on line 27 is dead with `task='distance'` and no cap.) -/
def slidingStep (seq1 seq2 : String) (win : Nat) (st : ℚ × Bool) (i : Nat) :
    ℚ × Bool :=
  if st.2 then st
  else
    let d := semiHW (pySlice seq1 i ((i : Int) + win)).data seq2.data
    let identity : ℚ := 1 - (d : ℚ) / (win : ℚ)
    let best := if st.1 < identity then identity else st.1
    (best, decide (best = 1))

/-- `sliding_window_identity_fast` (source lines 22–34). -/
def sliding_window_identity_fast (seq1 seq2 : String) (win : Nat) : ℚ :=
  ((List.range (((seq1.length : Int) - win + 1).toNat)).foldl
    (slidingStep seq1 seq2 win) ((0 : ℚ), false)).1

/-- One step of the best-window scan inside `check_one_target`
(source lines 97–109): state `(best_identity, best_start, stopped)`. -/
def windowScanStep (q t : String) (win : Nat) (st : ℚ × Int × Bool) (i : Nat) :
    ℚ × Int × Bool :=
  if st.2.2 then st
  else
    let d := semiHW (pySlice q i ((i : Int) + win)).data t.data
    let identity : ℚ := 1 - (d : ℚ) / (win : ℚ)
    let best := if st.1 < identity then identity else st.1
    let start := if st.1 < identity then (i : Int) else st.2.1
    (best, start, decide (best = 1))

/-- The best-window scan of `check_one_target` (source lines 97–109):
returns `(best_identity, best_start)`, starting from `(0.0, -1)`. -/
def windowScan (q t : String) (win : Nat) : ℚ × Int :=
  let r := (List.range (((q.length : Int) - win + 1).toNat)).foldl
    (windowScanStep q t win) ((0 : ℚ), (-1 : Int), false)
  (r.1, r.2.1)

/-- `has_exact8mer` (source lines 48–53): despite the local name `sixmers`,
the source enumerates the length-8 substrings of `seq1` and tests each for
exact containment in `seq2`. -/
def has_exact8mer (seq1 seq2 : String) : Bool :=
  (List.range (((seq1.length : Int) - 8 + 1).toNat)).any
    (fun i => isSubstr (pySlice seq1 i ((i : Int) + 8)) seq2)

/-- The 8-mer hit count of `check_one_target` (source lines 130–134): the
sum over the *set* of distinct length-8 substrings of the query of their
(possibly overlapping) occurrence counts in the target; the Python set
comprehension is modelled by `List.dedup`. -/
def eightmerHitCount (qs ts : String) : Nat :=
  (((List.range (((qs.length : Int) - 8 + 1).toNat)).map
      (fun i => pySlice qs i ((i : Int) + 8))).dedup.map
    (fun mer => count_substring_hits mer ts)).sum

/-! ### Organism extraction

`extract_os` (source lines 176–179) runs
`re.search(r'OS=([^=]+?)\s*(?:OX=|GN=|PE=|SV=|$)', description)` and strips
the captured group, defaulting to `"Unknown"`.  The model below replays
the backtracking semantics directly: `re.search` tries start positions
left to right, the literal `OS=` must match there, the lazy group
`([^=]+?)` tries the shortest nonempty capture first, `\s*` then consumes
whitespace, and one of the four annotation keys or end-of-input must
follow.  Since the four keys start with non-whitespace letters, the greedy
`\s*` with backtracking succeeds exactly when, after dropping all leading
whitespace from the residue, the input is empty or starts with a key. -/

/-- Can `\s*(?:OX=|GN=|PE=|SV=|$)` match the whole-match continuation? -/
def osViableTail (cs : List Char) : Bool :=
  let rest := cs.dropWhile (fun c => c.isWhitespace)
  rest.isEmpty || "OX=".data.isPrefixOf rest || "GN=".data.isPrefixOf rest ||
    "PE=".data.isPrefixOf rest || "SV=".data.isPrefixOf rest

/-- Lazy capture for `([^=]+?)`: extend the capture one character (never
`'='`) at a time, succeeding at the first length whose continuation is
viable. -/
def osLazyCapture (acc : List Char) : List Char → Option (List Char)
  | [] => none
  | c :: rest =>
      if c = '=' then none
      else if osViableTail rest then some (acc ++ [c])
      else osLazyCapture (acc ++ [c]) rest

/-- `re.search` over start positions, leftmost first. -/
def osSearch : List Char → Option (List Char)
  | 'O' :: 'S' :: '=' :: tail =>
      match osLazyCapture [] tail with
      | some cap => some cap
      | none => osSearch ('S' :: '=' :: tail)
  | _ :: rest => osSearch rest
  | [] => none

/-- `extract_os` (source lines 176–179). -/
def extract_os (description : String) : String :=
  match osSearch description.data with
  | some cap => pyStrip (String.mk cap)
  | none => "Unknown"

/-! ### Data model -/

/-- A parsed sequence record: `{id, description, residues}` as consumed
from the FASTA collaborator (`rec.id`, `rec.description`, `str(rec.seq)`). -/
structure SeqRecord where
  id : String
  description : String
  seq : String
deriving DecidableEq, Repr

/-- The result dictionary built by `check_one_target`
(source lines 143–155), with its exact fields. -/
structure MatchResult where
  id : String
  description : String
  identity : ℚ
  identity_adjusted : ℚ
  has_6mer : Bool
  score : ℚ
  match_mode : String
  window_contains_epitope : Bool
  best_window_seq : String
  window_hit_count : Nat
  eightmer_hit_count : Nat
deriving DecidableEq, Repr

/-- The epitope catalog `epitope_map`: accession → list of epitope
strings, as an insertion-ordered association list. -/
def EpitopeMap : Type := List (String × List String)

/-- `epitope_map.get(uniprot_id, [])`. -/
def mapGet : EpitopeMap → String → List String
  | [], _ => []
  | (k, v) :: rest, key => if k = key then v else mapGet rest key

/-- Default keyword argument `exact6_bonus=0.1` of `check_one_target`. -/
def exact6_bonus : ℚ := 1 / 10

/-- Default keyword argument `epitope_factor=0.8` of `check_one_target`. -/
def epitope_factor : ℚ := 4 / 5

/-- Does the best window contain one of the accession's epitopes
(source line 120: `any(epitope in best_window_seq for epitope in
epitope_list)`)? -/
def windowContainsEpitope (em : EpitopeMap) (uid : String) (w : String) : Bool :=
  (mapGet em uid).any (fun e => isSubstr e w)

/-- The result dictionary assembled at source lines 114–155, given the
already-computed best identity and best start offset.  `best_window_seq`
is the Python slice `query_str[best_start:best_start+win]` (with
`best_start` possibly `-1`). -/
def mkResult (em : EpitopeMap) (qs : String) (rec : SeqRecord) (win : Nat)
    (local_enabled : Bool) (uid : String) (best : ℚ) (bs : Int) : MatchResult :=
  { id := rec.id
    description := rec.description
    identity := best
    identity_adjusted :=
      if local_enabled then
        (if windowContainsEpitope em uid (pySlice qs bs (bs + win)) then best
         else best * epitope_factor)
      else best
    has_6mer := has_exact8mer qs (pyUpper rec.seq)
    score :=
      (if local_enabled then
        (if windowContainsEpitope em uid (pySlice qs bs (bs + win)) then best
         else best * epitope_factor)
      else best) +
      (if has_exact8mer qs (pyUpper rec.seq) then exact6_bonus else 0)
    match_mode := if local_enabled then "global_epitope_adjusted" else "global_no_epitope"
    window_contains_epitope :=
      local_enabled && windowContainsEpitope em uid (pySlice qs bs (bs + win))
    best_window_seq := pySlice qs bs (bs + win)
    window_hit_count := count_substring_hits (pySlice qs bs (bs + win)) (pyUpper rec.seq)
    eightmer_hit_count := eightmerHitCount qs (pyUpper rec.seq) }

/-- `check_one_target` (source lines 89–155).  `query_str` arrives already
uppercased from `check_cross_parallel`; the target is uppercased here
(line 91).  A byte-equal (post-uppercasing) target is a self-match and
yields `none` (lines 92–93).  Line 95, `rec.id.split("|")[1]`, raises
`IndexError` when the identifier has fewer than two `|`-separated fields —
modelled as `Except.error`; there is no handler in the source.  Below
threshold yields `none` (lines 111–112). -/
def check_one_target (em : EpitopeMap) (query_str : String) (rec : SeqRecord)
    (win : Nat) (id_thresh : ℚ) (local_enabled : Bool) :
    Except String (Option MatchResult) :=
  if (pyUpper rec.seq) = query_str then Except.ok none
  else
    match (pySplitPipe rec.id).get? 1 with
    | none => Except.error "IndexError: list index out of range"
    | some uniprot_id =>
        if (windowScan query_str (pyUpper rec.seq) win).1 < id_thresh then Except.ok none
        else
          Except.ok (some (mkResult em query_str rec win local_enabled uniprot_id
            (windowScan query_str (pyUpper rec.seq) win).1
            (windowScan query_str (pyUpper rec.seq) win).2))

/-- The collection loop of `check_cross_parallel` (source lines 168–173):
non-null worker results are kept; a worker exception propagates out of the
pool iteration and aborts the whole batch, so the first `Except.error`
aborts the collection.  The multiprocessing pool delivers results in
arbitrary arrival order; the model fixes database order, which determines
the same result multiset. -/
def collectResults (em : EpitopeMap) (qs : String) (win : Nat) (t : ℚ)
    (le : Bool) : List SeqRecord → Except String (List MatchResult)
  | [] => Except.ok []
  | rec :: rest =>
      match check_one_target em qs rec win t le with
      | Except.error e => Except.error e
      | Except.ok none => collectResults em qs win t le rest
      | Except.ok (some r) =>
          match collectResults em qs win t le rest with
          | Except.error e => Except.error e
          | Except.ok rs => Except.ok (r :: rs)

/-- `check_cross_parallel` (source lines 160–173): uppercase the query
(line 161) and scan every database record. -/
def check_cross_parallel (em : EpitopeMap) (query : SeqRecord)
    (db : List SeqRecord) (win : Nat) (id_thresh : ℚ) (local_enabled : Bool) :
    Except String (List MatchResult) :=
  collectResults em (pyUpper query.seq) win id_thresh local_enabled db

/-! ### Organism deduplication

`dedup_by_os` (source lines 182–188) keeps one best result per organism
label in a Python dict; dicts preserve first-insertion order of keys and
`os_best[os_name] = r` on an existing key updates in place.  The dict is
modelled as an insertion-ordered association list. -/

/-- Lookup in the insertion-ordered dict model. -/
def lookupOS (k : String) : List (String × MatchResult) → Option MatchResult
  | [] => none
  | (k', v) :: rest => if k' = k then some v else lookupOS k rest

/-- In-place value update at key `k` (first occurrence), preserving
insertion order. -/
def replaceOS (k : String) (r : MatchResult) :
    List (String × MatchResult) → List (String × MatchResult)
  | [] => []
  | (k', v) :: rest =>
      if k' = k then (k', r) :: rest else (k', v) :: replaceOS k r rest

/-- One iteration of the `dedup_by_os` loop (source lines 184–187):
`if os_name not in os_best or r["score"] > os_best[os_name]["score"]:
os_best[os_name] = r`. -/
def dedupStep (acc : List (String × MatchResult)) (r : MatchResult) :
    List (String × MatchResult) :=
  match lookupOS (extract_os r.description) acc with
  | none => acc ++ [(extract_os r.description, r)]
  | some cur =>
      if cur.score < r.score then replaceOS (extract_os r.description) r acc
      else acc

/-- `dedup_by_os` (source lines 182–188): `list(os_best.values())`. -/
def dedup_by_os (results : List MatchResult) : List MatchResult :=
  (results.foldl dedupStep []).map Prod.snd

/-- Loop invariant of the `dedup_by_os` fold over the processed prefix
`p`: keys are distinct; each entry's key is its value's organism label;
each stored value occurs in `p`, strictly beats every earlier same-label
result and ties-or-beats every later one; and every processed label is
represented. -/
def GoodAcc (p : List MatchResult) (acc : List (String × MatchResult)) : Prop :=
  (acc.map Prod.fst).Nodup ∧
  (∀ pr ∈ acc, pr.1 = extract_os pr.2.description) ∧
  (∀ pr ∈ acc, ∃ p1 p2, p = p1 ++ pr.2 :: p2 ∧
    (∀ s ∈ p1, extract_os s.description = pr.1 → s.score < pr.2.score) ∧
    (∀ s ∈ p2, extract_os s.description = pr.1 → s.score ≤ pr.2.score)) ∧
  (∀ s ∈ p, ∃ pr ∈ acc, pr.1 = extract_os s.description)

/-! ### Basic invariants of the embedding -/

/-- Invariance of a predicate under a left fold. -/
theorem foldl_inv {α β : Type} (P : α → Prop) (f : α → β → α)
    (hf : ∀ a b, P a → P (f a b)) :
    ∀ (l : List β) (a : α), P a → P (l.foldl f a)
  | [], _, ha => ha
  | b :: l, a, ha => foldl_inv P f hf l (f a b) (hf a b ha)

/-- Every cell of a continued DP row is at most one more than a bound on
the previous row. -/
theorem rowAux_le (pc : Char) (k : Nat) :
    ∀ (t : List Char) (prev : List Nat) (left : Nat),
      (∀ x ∈ prev, x ≤ k) → ∀ y ∈ rowAux pc t prev left, y ≤ k + 1 := by
  intro t
  induction t with
  | nil =>
      intro prev left hp y hy
      simp [rowAux] at hy
  | cons tc ts ih =>
      intro prev left hp y hy
      rcases prev with _ | ⟨diag, prev'⟩
      · simp [rowAux] at hy
      rcases prev' with _ | ⟨up, ps⟩
      · simp [rowAux] at hy
      rw [rowAux] at hy
      rcases List.mem_cons.mp hy with h | h
      · have hup : up ≤ k := hp up (by simp)
        calc y ≤ up + 1 := by
              rw [h]; exact le_trans (min_le_left _ _) (min_le_left _ _)
          _ ≤ k + 1 := by omega
      · exact ih (up :: ps) _ (fun x hx => hp x (List.mem_cons_of_mem _ hx)) y h

/-- Every cell of DP row `i + |p|` is at most `i + |p|` when row `i` is
bounded by `i`. -/
theorem dpRows_le (t : List Char) :
    ∀ (p : List Char) (prev : List Nat) (i : Nat),
      (∀ x ∈ prev, x ≤ i) → ∀ y ∈ dpRows t p prev i, y ≤ i + p.length := by
  intro p
  induction p with
  | nil =>
      intro prev i hp y hy
      rw [dpRows] at hy
      simpa using hp y hy
  | cons pc ps ih =>
      intro prev i hp y hy
      rw [dpRows] at hy
      have hnext : ∀ x ∈ nextRow pc t prev (i + 1), x ≤ i + 1 := by
        intro x hx
        rw [nextRow] at hx
        rcases List.mem_cons.mp hx with h | h
        · omega
        · exact rowAux_le pc i t prev (i + 1) hp x h
      have := ih (nextRow pc t prev (i + 1)) (i + 1) hnext y hy
      simpa [Nat.add_assoc, Nat.add_comm 1 ps.length] using this

/-- A left fold by `min` never exceeds its seed. -/
theorem foldl_min_le (x : Nat) (xs : List Nat) : xs.foldl min x ≤ x := by
  induction xs generalizing x with
  | nil => simp
  | cons y ys ih =>
      exact le_trans (ih (min x y)) (min_le_left _ _)

/-- `minList` respects a uniform upper bound. -/
theorem minList_le (k : Nat) : ∀ l : List Nat, (∀ x ∈ l, x ≤ k) → minList l ≤ k
  | [], _ => by simp [minList]
  | x :: xs, h => by
      have h1 : minList (x :: xs) ≤ x := by
        simpa [minList] using foldl_min_le x xs
      exact le_trans h1 (h x (by simp))

/-- The semi-global distance is at most the pattern length (delete the
whole pattern against an empty infix of the text). -/
theorem semiHW_le (p t : List Char) : semiHW p t ≤ p.length := by
  unfold semiHW
  apply minList_le
  intro y hy
  have h0 : ∀ x ∈ List.replicate (t.length + 1) 0, x ≤ 0 := by
    intro x hx
    simp [List.eq_of_mem_replicate hx]
  simpa using dpRows_le t p (List.replicate (t.length + 1) 0) 0 h0 y hy

/-- A window slice has length at most the window width. -/
theorem pySlice_data_length_le (s : String) (i win : Nat) :
    (pySlice s (i : Int) ((i : Int) + win)).data.length ≤ win := by
  unfold pySlice pySliceList pyClamp
  simp only [String.mk]
  rw [List.length_drop, List.length_take]
  split <;> split <;> omega

/-- The running best identity of the inner window scan stays in `[0, 1]`. -/
theorem windowScanStep_bound (q t : String) (win : Nat) (hwin : 1 ≤ win)
    (st : ℚ × Int × Bool) (i : Nat) (h0 : 0 ≤ st.1) (h1 : st.1 ≤ 1) :
    0 ≤ (windowScanStep q t win st i).1 ∧ (windowScanStep q t win st i).1 ≤ 1 := by
  unfold windowScanStep
  by_cases hs : st.2.2
  · simp [hs, h0, h1]
  · simp only [hs, if_false, Bool.false_eq_true]
    have hd : ((semiHW (pySlice q (i : Int) ((i : Int) + win)).data t.data : Nat) : ℚ) ≤
        (win : ℚ) := by
      have ha := semiHW_le (pySlice q (i : Int) ((i : Int) + win)).data t.data
      have hb := pySlice_data_length_le q i win
      exact_mod_cast le_trans ha hb
    have hw0 : (0 : ℚ) < (win : ℚ) := by
      have : (1 : ℚ) ≤ (win : ℚ) := by exact_mod_cast hwin
      linarith
    have hdiv0 : 0 ≤ ((semiHW (pySlice q (i : Int) ((i : Int) + win)).data t.data : Nat) : ℚ) /
        (win : ℚ) := by positivity
    have hdiv1 : ((semiHW (pySlice q (i : Int) ((i : Int) + win)).data t.data : Nat) : ℚ) /
        (win : ℚ) ≤ 1 := by
      rw [div_le_one hw0]; exact hd
    by_cases hlt : st.1 < 1 - ((semiHW (pySlice q (i : Int) ((i : Int) + win)).data t.data : Nat) : ℚ) / (win : ℚ)
    · simp only [hlt, if_true]
      constructor <;> linarith
    · simp only [hlt, if_false]
      exact ⟨h0, h1⟩

/-- The best identity returned by the inner window scan lies in `[0, 1]`. -/
theorem windowScan_bounds (q t : String) (win : Nat) (hwin : 1 ≤ win) :
    0 ≤ (windowScan q t win).1 ∧ (windowScan q t win).1 ≤ 1 := by
  have := foldl_inv (fun st : ℚ × Int × Bool => 0 ≤ st.1 ∧ st.1 ≤ 1)
    (windowScanStep q t win)
    (fun a b hb => windowScanStep_bound q t win hwin a b hb.1 hb.2)
    (List.range (((q.length : Int) - win + 1).toNat))
    ((0 : ℚ), (-1 : Int), false) ⟨le_refl 0, by norm_num⟩
  exact this

/-- The running best of `sliding_window_identity_fast` stays in `[0, 1]`. -/
theorem slidingStep_bound (s1 s2 : String) (win : Nat) (hwin : 1 ≤ win)
    (st : ℚ × Bool) (i : Nat) (h0 : 0 ≤ st.1) (h1 : st.1 ≤ 1) :
    0 ≤ (slidingStep s1 s2 win st i).1 ∧ (slidingStep s1 s2 win st i).1 ≤ 1 := by
  unfold slidingStep
  by_cases hs : st.2
  · simp [hs, h0, h1]
  · simp only [hs, if_false, Bool.false_eq_true]
    have hd : ((semiHW (pySlice s1 (i : Int) ((i : Int) + win)).data s2.data : Nat) : ℚ) ≤
        (win : ℚ) := by
      have ha := semiHW_le (pySlice s1 (i : Int) ((i : Int) + win)).data s2.data
      have hb := pySlice_data_length_le s1 i win
      exact_mod_cast le_trans ha hb
    have hw0 : (0 : ℚ) < (win : ℚ) := by
      have : (1 : ℚ) ≤ (win : ℚ) := by exact_mod_cast hwin
      linarith
    have hdiv0 : 0 ≤ ((semiHW (pySlice s1 (i : Int) ((i : Int) + win)).data s2.data : Nat) : ℚ) /
        (win : ℚ) := by positivity
    have hdiv1 : ((semiHW (pySlice s1 (i : Int) ((i : Int) + win)).data s2.data : Nat) : ℚ) /
        (win : ℚ) ≤ 1 := by
      rw [div_le_one hw0]; exact hd
    by_cases hlt : st.1 < 1 - ((semiHW (pySlice s1 (i : Int) ((i : Int) + win)).data s2.data : Nat) : ℚ) / (win : ℚ)
    · simp only [hlt, if_true]
      constructor <;> linarith
    · simp only [hlt, if_false]
      exact ⟨h0, h1⟩

/-- `sliding_window_identity_fast` lies in `[0, 1]`. -/
theorem sliding_window_identity_bounds (s1 s2 : String) (win : Nat) (hwin : 1 ≤ win) :
    0 ≤ sliding_window_identity_fast s1 s2 win ∧
      sliding_window_identity_fast s1 s2 win ≤ 1 := by
  have := foldl_inv (fun st : ℚ × Bool => 0 ≤ st.1 ∧ st.1 ≤ 1)
    (slidingStep s1 s2 win)
    (fun a b hb => slidingStep_bound s1 s2 win hwin a b hb.1 hb.2)
    (List.range (((s1.length : Int) - win + 1).toNat))
    ((0 : ℚ), false) ⟨le_refl 0, by norm_num⟩
  exact this

/-! ### Inversion of `check_one_target` -/

/-- A successful per-candidate check determines the result record: the
target is not a (case-normalized) self-match, the identifier has a second
field, the best identity clears the threshold, and the result is exactly
the assembled dictionary. -/
theorem check_some_inv (em : EpitopeMap) (qs : String) (rec : SeqRecord)
    (win : Nat) (th : ℚ) (le : Bool) (r : MatchResult)
    (h : check_one_target em qs rec win th le = Except.ok (some r)) :
    (pyUpper rec.seq) ≠ qs ∧ ∃ uid, (pySplitPipe rec.id).get? 1 = some uid ∧
      ¬ (windowScan qs (pyUpper rec.seq) win).1 < th ∧
      r = mkResult em qs rec win le uid (windowScan qs (pyUpper rec.seq) win).1
        (windowScan qs (pyUpper rec.seq) win).2 := by
  unfold check_one_target at h
  by_cases h1 : (pyUpper rec.seq) = qs
  · rw [if_pos h1] at h
    simp at h
  · rw [if_neg h1] at h
    refine ⟨h1, ?_⟩
    cases hsp : (pySplitPipe rec.id).get? 1 with
    | none =>
        rw [hsp] at h
        exact absurd h (by simp)
    | some uid =>
        rw [hsp] at h
        dsimp only at h
        by_cases h2 : (windowScan qs (pyUpper rec.seq) win).1 < th
        · rw [if_pos h2] at h
          simp at h
        · rw [if_neg h2] at h
          refine ⟨uid, rfl, h2, ?_⟩
          have := Except.ok.inj h
          exact (Option.some.inj this).symm

/-- Whether the per-candidate check raises, and with which message, does
not depend on the identity threshold: the failing index access happens
before the threshold test. -/
theorem check_error_indep (em : EpitopeMap) (qs : String) (rec : SeqRecord)
    (win : Nat) (le : Bool) (e : String) (t t' : ℚ) :
    check_one_target em qs rec win t le = Except.error e ↔
      check_one_target em qs rec win t' le = Except.error e := by
  unfold check_one_target
  by_cases h1 : (pyUpper rec.seq) = qs
  · rw [if_pos h1, if_pos h1]
  · rw [if_neg h1, if_neg h1]
    cases hsp : (pySplitPipe rec.id).get? 1 with
    | none => rfl
    | some uid =>
        dsimp only
        constructor <;> intro h
        · by_cases h2 : (windowScan qs (pyUpper rec.seq) win).1 < t
          · rw [if_pos h2] at h; exact absurd h (by simp)
          · rw [if_neg h2] at h; exact absurd h (by simp)
        · by_cases h2 : (windowScan qs (pyUpper rec.seq) win).1 < t'
          · rw [if_pos h2] at h; exact absurd h (by simp)
          · rw [if_neg h2] at h; exact absurd h (by simp)

/-- A candidate that survives a higher threshold survives any lower one
with the identical result record. -/
theorem check_some_mono (em : EpitopeMap) (qs : String) (rec : SeqRecord)
    (win : Nat) (le : Bool) (r : MatchResult) {t1 t2 : ℚ} (hle : t1 ≤ t2)
    (h : check_one_target em qs rec win t2 le = Except.ok (some r)) :
    check_one_target em qs rec win t1 le = Except.ok (some r) := by
  obtain ⟨h1, uid, hsp, h2, hr⟩ := check_some_inv em qs rec win t2 le r h
  unfold check_one_target
  rw [if_neg h1, hsp]
  dsimp only
  have h2' : ¬ (windowScan qs (pyUpper rec.seq) win).1 < t1 := fun hc =>
    h2 (lt_of_lt_of_le hc hle)
  rw [if_neg h2', hr]

/-- A case-normalized self-match yields a null result. -/
theorem check_self_none (em : EpitopeMap) (qs : String) (rec : SeqRecord)
    (win : Nat) (th : ℚ) (le : Bool) (h : (pyUpper rec.seq) = qs) :
    check_one_target em qs rec win th le = Except.ok none := by
  unfold check_one_target
  rw [if_pos h]

/-! ### The collection loop -/

/-- Every collected result was produced by some database record. -/
theorem mem_collectResults (em : EpitopeMap) (qs : String) (win : Nat)
    (t : ℚ) (le : Bool) :
    ∀ (db : List SeqRecord) (l : List MatchResult) (r : MatchResult),
      collectResults em qs win t le db = Except.ok l → r ∈ l →
      ∃ rec ∈ db, check_one_target em qs rec win t le = Except.ok (some r) := by
  intro db
  induction db with
  | nil =>
      intro l r h hr
      rw [collectResults] at h
      cases Except.ok.inj h
      simp at hr
  | cons rec rest ih =>
      intro l r h hr
      rw [collectResults] at h
      cases hc : check_one_target em qs rec win t le with
      | error e => rw [hc] at h; exact absurd h (by simp)
      | ok o =>
          rw [hc] at h
          cases o with
          | none =>
              obtain ⟨rec', hmem, hrec'⟩ := ih l r h hr
              exact ⟨rec', List.mem_cons_of_mem _ hmem, hrec'⟩
          | some r0 =>
              cases hrest : collectResults em qs win t le rest with
              | error e => rw [hrest] at h; exact absurd h (by simp)
              | ok rs =>
                  rw [hrest] at h
                  cases Except.ok.inj h
                  rcases List.mem_cons.mp hr with h' | h'
                  · exact ⟨rec, List.mem_cons_self _ _, by rw [hc, h']⟩
                  · obtain ⟨rec', hmem, hrec'⟩ := ih rs r hrest h'
                    exact ⟨rec', List.mem_cons_of_mem _ hmem, hrec'⟩

/-- If some database record makes its worker raise, the scan never
returns a result list. -/
theorem collect_no_ok_of_error (em : EpitopeMap) (qs : String) (win : Nat)
    (t : ℚ) (le : Bool) (bad : SeqRecord) (e : String)
    (hbad : check_one_target em qs bad win t le = Except.error e) :
    ∀ (db : List SeqRecord), bad ∈ db →
      ∀ l, collectResults em qs win t le db ≠ Except.ok l := by
  intro db
  induction db with
  | nil => intro h; simp at h
  | cons rec rest ih =>
      intro hmem l h
      rw [collectResults] at h
      rcases List.mem_cons.mp hmem with heq | hmem'
      · rw [← heq, hbad] at h
        exact absurd h (by simp)
      · cases hc : check_one_target em qs rec win t le with
        | error e' => rw [hc] at h; exact absurd h (by simp)
        | ok o =>
            rw [hc] at h
            cases o with
            | none => exact ih hmem' l h
            | some r0 =>
                cases hrest : collectResults em qs win t le rest with
                | error e' => rw [hrest] at h; exact absurd h (by simp)
                | ok rs => exact ih hmem' rs hrest

/-- Raising the threshold only removes results: every result surviving
threshold `t2` also survives any `t1 ≤ t2`. -/
theorem collect_mono (em : EpitopeMap) (qs : String) (win : Nat) (le : Bool)
    {t1 t2 : ℚ} (hle : t1 ≤ t2) :
    ∀ (db : List SeqRecord) (l1 l2 : List MatchResult),
      collectResults em qs win t1 le db = Except.ok l1 →
      collectResults em qs win t2 le db = Except.ok l2 →
      ∀ r ∈ l2, r ∈ l1 := by
  intro db
  induction db with
  | nil =>
      intro l1 l2 h1 h2 r hr
      rw [collectResults] at h2
      cases Except.ok.inj h2
      simp at hr
  | cons rec rest ih =>
      intro l1 l2 h1 h2 r hr
      rw [collectResults] at h1 h2
      cases hc2 : check_one_target em qs rec win t2 le with
      | error e => rw [hc2] at h2; exact absurd h2 (by simp)
      | ok o2 =>
          rw [hc2] at h2
          cases o2 with
          | some r0 =>
              have hc1 : check_one_target em qs rec win t1 le = Except.ok (some r0) :=
                check_some_mono em qs rec win le r0 hle hc2
              rw [hc1] at h1
              cases hrest2 : collectResults em qs win t2 le rest with
              | error e => rw [hrest2] at h2; exact absurd h2 (by simp)
              | ok rs2 =>
                  rw [hrest2] at h2
                  cases Except.ok.inj h2
                  cases hrest1 : collectResults em qs win t1 le rest with
                  | error e => rw [hrest1] at h1; exact absurd h1 (by simp)
                  | ok rs1 =>
                      rw [hrest1] at h1
                      cases Except.ok.inj h1
                      rcases List.mem_cons.mp hr with h' | h'
                      · exact h' ▸ List.mem_cons_self _ _
                      · exact List.mem_cons_of_mem _ (ih rs1 rs2 hrest1 hrest2 r h')
          | none =>
              cases hc1 : check_one_target em qs rec win t1 le with
              | error e =>
                  have : check_one_target em qs rec win t2 le = Except.error e :=
                    (check_error_indep em qs rec win le e t1 t2).mp hc1
                  rw [this] at hc2
                  exact absurd hc2 (by simp)
              | ok o1 =>
                  rw [hc1] at h1
                  cases o1 with
                  | none => exact ih l1 l2 h1 h2 r hr
                  | some r1 =>
                      cases hrest1 : collectResults em qs win t1 le rest with
                      | error e => rw [hrest1] at h1; exact absurd h1 (by simp)
                      | ok rs1 =>
                          rw [hrest1] at h1
                          cases Except.ok.inj h1
                          exact List.mem_cons_of_mem _ (ih rs1 l2 hrest1 h2 r hr)

/-! ### 8-mer lemmas -/

/-- Offsets enumerated by the 8-mer comprehension are exactly those whose
window fits inside the string. -/
theorem range_eightmer_mem (n i : Nat) : i < (((n : Int) - 8 + 1)).toNat ↔ i + 8 ≤ n := by
  omega

/-- The exact-8-mer flag is set iff some length-8 window of `a` occurs in
`b` as an exact substring. -/
theorem has_exact8mer_iff (a b : String) :
    has_exact8mer a b = true ↔
      ∃ i, i + 8 ≤ a.length ∧
        isSubstr (pySlice a (i : Int) ((i : Int) + 8)) b = true := by
  unfold has_exact8mer
  rw [List.any_eq_true]
  constructor
  · rintro ⟨i, hi, hsub⟩
    exact ⟨i, (range_eightmer_mem a.length i).mp (List.mem_range.mp hi), hsub⟩
  · rintro ⟨i, hi, hsub⟩
    exact ⟨i, List.mem_range.mpr ((range_eightmer_mem a.length i).mpr hi), hsub⟩

/-- A query shorter than 8 residues has no 8-mers: the flag is false. -/
theorem has_exact8mer_short (a b : String) (h : a.length < 8) :
    has_exact8mer a b = false := by
  unfold has_exact8mer
  have hz : (((a.length : Int) - 8 + 1)).toNat = 0 := by omega
  rw [hz]
  rfl

/-- A query shorter than 8 residues has 8-mer hit count 0. -/
theorem eightmerHitCount_short (a b : String) (h : a.length < 8) :
    eightmerHitCount a b = 0 := by
  unfold eightmerHitCount
  have hz : (((a.length : Int) - 8 + 1)).toNat = 0 := by omega
  rw [hz]
  rfl

/-! ### Association-list lemmas for the dedup dict -/

/-- Lookup fails exactly when no entry has the key. -/
theorem lookupOS_eq_none (k : String) (acc : List (String × MatchResult)) :
    lookupOS k acc = none ↔ ∀ pr ∈ acc, pr.1 ≠ k := by
  induction acc with
  | nil => simp [lookupOS]
  | cons p rest ih =>
      obtain ⟨k', v⟩ := p
      by_cases h : k' = k
      · subst h
        simp [lookupOS]
      · simp [lookupOS, h, ih]

/-- A successful lookup exhibits a member. -/
theorem lookupOS_mem (k : String) (acc : List (String × MatchResult))
    (v : MatchResult) (h : lookupOS k acc = some v) : (k, v) ∈ acc := by
  induction acc with
  | nil => simp [lookupOS] at h
  | cons p rest ih =>
      obtain ⟨k', v'⟩ := p
      by_cases hk : k' = k
      · subst hk
        rw [lookupOS, if_pos rfl] at h
        rw [← Option.some.inj h]
        exact List.mem_cons_self _ _
      · rw [lookupOS, if_neg hk] at h
        exact List.mem_cons_of_mem _ (ih h)

/-- With distinct keys, the looked-up entry is the only one at its key. -/
theorem lookupOS_unique (k : String) (v : MatchResult) :
    ∀ acc : List (String × MatchResult), (acc.map Prod.fst).Nodup →
      lookupOS k acc = some v → ∀ pr ∈ acc, pr.1 = k → pr = (k, v) := by
  intro acc
  induction acc with
  | nil => simp
  | cons p rest ih =>
      obtain ⟨k', v'⟩ := p
      intro hnd h pr hpr hprk
      rw [List.map_cons, List.nodup_cons] at hnd
      by_cases hk : k' = k
      · subst hk
        rw [lookupOS, if_pos rfl] at h
        rcases List.mem_cons.mp hpr with h' | h'
        · rw [h', ← Option.some.inj h]
        · exfalso
          apply hnd.1
          rw [← hprk]
          exact List.mem_map.mpr ⟨pr, h', rfl⟩
      · rw [lookupOS, if_neg hk] at h
        rcases List.mem_cons.mp hpr with h' | h'
        · refine absurd ?_ hk
          rw [h'] at hprk
          exact hprk
        · exact ih hnd.2 h pr h' hprk

/-- Replacement does not change the key sequence. -/
theorem replaceOS_map_fst (k : String) (r : MatchResult) :
    ∀ acc : List (String × MatchResult),
      (replaceOS k r acc).map Prod.fst = acc.map Prod.fst
  | [] => rfl
  | (k', v) :: rest => by
      by_cases h : k' = k
      · rw [replaceOS, if_pos h]
        rfl
      · rw [replaceOS, if_neg h]
        simp [replaceOS_map_fst k r rest]

/-- With distinct keys, a member of the replaced list is the fresh entry
or an untouched entry at a different key. -/
theorem mem_replaceOS (k : String) (r : MatchResult)
    (acc : List (String × MatchResult)) (hnd : (acc.map Prod.fst).Nodup)
    (pr : String × MatchResult) (h : pr ∈ replaceOS k r acc) :
    pr = (k, r) ∨ (pr ∈ acc ∧ pr.1 ≠ k) := by
  induction acc with
  | nil => simp [replaceOS] at h
  | cons p rest ih =>
      obtain ⟨k', v⟩ := p
      rw [List.map_cons, List.nodup_cons] at hnd
      by_cases hk : k' = k
      · subst hk
        rw [replaceOS, if_pos rfl] at h
        rcases List.mem_cons.mp h with h' | h'
        · exact Or.inl h'
        · refine Or.inr ⟨List.mem_cons_of_mem _ h', ?_⟩
          intro hc
          exact hnd.1 (hc ▸ List.mem_map.mpr ⟨pr, h', rfl⟩)
      · rw [replaceOS, if_neg hk] at h
        rcases List.mem_cons.mp h with h' | h'
        · exact Or.inr ⟨h' ▸ List.mem_cons_self _ _, h' ▸ hk⟩
        · rcases ih hnd.2 h' with h'' | ⟨h1, h2⟩
          · exact Or.inl h''
          · exact Or.inr ⟨List.mem_cons_of_mem _ h1, h2⟩

/-- Replacing a present key puts the fresh entry in the list. -/
theorem mem_replaceOS_self (k : String) (r : MatchResult)
    (acc : List (String × MatchResult)) (cur : MatchResult)
    (h : lookupOS k acc = some cur) : (k, r) ∈ replaceOS k r acc := by
  induction acc with
  | nil => simp [lookupOS] at h
  | cons p rest ih =>
      obtain ⟨k', v⟩ := p
      by_cases hk : k' = k
      · subst hk
        rw [replaceOS, if_pos rfl]
        exact List.mem_cons_self _ _
      · rw [lookupOS, if_neg hk] at h
        rw [replaceOS, if_neg hk]
        exact List.mem_cons_of_mem _ (ih h)

/-- Entries at other keys survive replacement. -/
theorem mem_replaceOS_of_ne (k : String) (r : MatchResult)
    (pr : String × MatchResult) (hne : pr.1 ≠ k)
    (acc : List (String × MatchResult)) (h : pr ∈ acc) :
    pr ∈ replaceOS k r acc := by
  induction acc with
  | nil => simp at h
  | cons p rest ih =>
      obtain ⟨k', v⟩ := p
      by_cases hk : k' = k
      · rw [replaceOS, if_pos hk]
        rcases List.mem_cons.mp h with h' | h'
        · exact absurd (by rw [h']; exact hk : pr.1 = k) hne
        · exact List.mem_cons_of_mem _ h'
      · rw [replaceOS, if_neg hk]
        rcases List.mem_cons.mp h with h' | h'
        · exact h' ▸ List.mem_cons_self _ _
        · exact List.mem_cons_of_mem _ (ih h')

/-! ### The dedup loop invariant -/

/-- One `dedup_by_os` iteration preserves the loop invariant. -/
theorem goodAcc_step (p : List MatchResult) (acc : List (String × MatchResult))
    (r : MatchResult) (hg : GoodAcc p acc) : GoodAcc (p ++ [r]) (dedupStep acc r) := by
  obtain ⟨hnd, hkey, hmax, hcov⟩ := hg
  unfold dedupStep
  cases hl : lookupOS (extract_os r.description) acc with
  | none =>
      refine ⟨?_, ?_, ?_, ?_⟩
      · rw [List.map_append]
        rw [List.nodup_append]
        refine ⟨hnd, by simp, ?_⟩
        intro a ha hb
        simp at hb
        obtain ⟨pr, hpr, hpr1⟩ := List.mem_map.mp ha
        exact ((lookupOS_eq_none _ acc).mp hl pr hpr) (by rw [hpr1, hb])
      · intro pr hpr
        rcases List.mem_append.mp hpr with h | h
        · exact hkey pr h
        · simp at h
          rw [h]
      · intro pr hpr
        rcases List.mem_append.mp hpr with h | h
        · obtain ⟨p1, p2, hp, hl1, hl2⟩ := hmax pr h
          refine ⟨p1, p2 ++ [r], by rw [hp]; simp, hl1, ?_⟩
          intro s hs hlab
          rcases List.mem_append.mp hs with h' | h'
          · exact hl2 s h' hlab
          · simp at h'
            subst h'
            exact absurd ((lookupOS_eq_none _ acc).mp hl pr h) (by simp [hlab])
        · simp at h
          subst h
          refine ⟨p, [], by simp, ?_, by simp⟩
          intro s hs hlab
          exfalso
          obtain ⟨pr', hpr', hpr1'⟩ := hcov s hs
          exact (lookupOS_eq_none _ acc).mp hl pr' hpr' (by rw [hpr1', hlab])
      · intro s hs
        rcases List.mem_append.mp hs with h | h
        · obtain ⟨pr, hpr, h1⟩ := hcov s h
          exact ⟨pr, List.mem_append_left _ hpr, h1⟩
        · simp at h
          subst h
          exact ⟨(extract_os s.description, s), List.mem_append_right _ (by simp), rfl⟩
  | some cur =>
      dsimp only
      by_cases hsc : cur.score < r.score
      · rw [if_pos hsc]
        have hkr : (extract_os r.description, r) ∈
            replaceOS (extract_os r.description) r acc :=
          mem_replaceOS_self _ _ acc cur hl
        refine ⟨?_, ?_, ?_, ?_⟩
        · rw [replaceOS_map_fst]
          exact hnd
        · intro pr hpr
          rcases mem_replaceOS _ _ acc hnd pr hpr with h | ⟨h, hne⟩
          · rw [h]
          · exact hkey pr h
        · intro pr hpr
          rcases mem_replaceOS _ _ acc hnd pr hpr with h | ⟨h, hne⟩
          · subst h
            refine ⟨p, [], by simp, ?_, by simp⟩
            intro s hs hlab
            obtain ⟨p1, p2, hp, hl1, hl2⟩ :=
              hmax (extract_os r.description, cur) (lookupOS_mem _ acc cur hl)
            rw [hp] at hs
            rcases List.mem_append.mp hs with h' | h'
            · exact lt_trans (hl1 s h' hlab) hsc
            · rcases List.mem_cons.mp h' with h'' | h''
              · rw [h'']
                exact hsc
              · exact lt_of_le_of_lt (hl2 s h'' hlab) hsc
          · obtain ⟨p1, p2, hp, hl1, hl2⟩ := hmax pr h
            refine ⟨p1, p2 ++ [r], by rw [hp]; simp, hl1, ?_⟩
            intro s hs hlab
            rcases List.mem_append.mp hs with h' | h'
            · exact hl2 s h' hlab
            · simp at h'
              subst h'
              exact absurd hlab.symm hne
        · intro s hs
          rcases List.mem_append.mp hs with h | h
          · obtain ⟨pr, hpr, h1⟩ := hcov s h
            by_cases hpk : pr.1 = extract_os r.description
            · exact ⟨(extract_os r.description, r), hkr, by rw [← hpk]; exact h1⟩
            · exact ⟨pr, mem_replaceOS_of_ne _ _ pr hpk acc hpr, h1⟩
          · simp at h
            subst h
            exact ⟨(extract_os s.description, s), hkr, rfl⟩
      · rw [if_neg hsc]
        refine ⟨hnd, hkey, ?_, ?_⟩
        · intro pr hpr
          obtain ⟨p1, p2, hp, hl1, hl2⟩ := hmax pr hpr
          refine ⟨p1, p2 ++ [r], by rw [hp]; simp, hl1, ?_⟩
          intro s hs hlab
          rcases List.mem_append.mp hs with h' | h'
          · exact hl2 s h' hlab
          · simp at h'
            subst h'
            have hpr_eq : pr = (extract_os s.description, cur) :=
              lookupOS_unique _ cur acc hnd hl pr hpr hlab.symm
            rw [hpr_eq]
            exact le_of_not_lt hsc
        · intro s hs
          rcases List.mem_append.mp hs with h | h
          · exact hcov s h
          · simp at h
            subst h
            exact ⟨(extract_os s.description, cur), lookupOS_mem _ acc cur hl, rfl⟩

/-- The invariant holds after folding any suffix. -/
theorem goodAcc_foldl :
    ∀ (l p : List MatchResult) (acc : List (String × MatchResult)),
      GoodAcc p acc → GoodAcc (p ++ l) (l.foldl dedupStep acc)
  | [], p, acc, h => by simpa using h
  | r :: l, p, acc, h => by
      have h1 := goodAcc_step p acc r h
      have h2 := goodAcc_foldl l (p ++ [r]) (dedupStep acc r) h1
      simpa using h2

/-- The invariant holds initially. -/
theorem goodAcc_init : GoodAcc [] [] := by
  refine ⟨by simp, by simp, by simp, by simp⟩

/-! ### Claim theorems -/

/-- C1: after `dedup_by_os`, no two surviving results share the same
parsed organism label; every survivor occurs in the input, strictly beats
every earlier same-label input and ties-or-beats every later one (so its
score is the maximum over its label class and, at ties, it is the
first-encountered maximiser); and every input label has a survivor. -/
theorem C1_dedup_by_os_invariant (l : List MatchResult) :
    ((dedup_by_os l).map (fun r => extract_os r.description)).Nodup ∧
    (∀ r ∈ dedup_by_os l, ∃ l1 l2, l = l1 ++ r :: l2 ∧
      (∀ s ∈ l1, extract_os s.description = extract_os r.description →
        s.score < r.score) ∧
      (∀ s ∈ l2, extract_os s.description = extract_os r.description →
        s.score ≤ r.score)) ∧
    (∀ s ∈ l, ∃ r ∈ dedup_by_os l,
      extract_os r.description = extract_os s.description) := by
  have hg : GoodAcc l (l.foldl dedupStep []) := by
    have := goodAcc_foldl l [] [] goodAcc_init
    simpa using this
  obtain ⟨hnd, hkey, hmax, hcov⟩ := hg
  refine ⟨?_, ?_, ?_⟩
  · unfold dedup_by_os
    have hmm : ((l.foldl dedupStep []).map Prod.snd).map
        (fun r => extract_os r.description) = (l.foldl dedupStep []).map Prod.fst := by
      rw [List.map_map]
      apply List.map_congr_left
      intro pr hpr
      exact (hkey pr hpr).symm
    rw [hmm]
    exact hnd
  · intro r hr
    unfold dedup_by_os at hr
    obtain ⟨pr, hpr, hpr2⟩ := List.mem_map.mp hr
    obtain ⟨k0, r0⟩ := pr
    dsimp only at hpr2
    subst hpr2
    have hk : k0 = extract_os r0.description := hkey (k0, r0) hpr
    obtain ⟨p1, p2, hp, hl1, hl2⟩ := hmax (k0, r0) hpr
    rw [hk] at hl1 hl2
    exact ⟨p1, p2, hp, hl1, hl2⟩
  · intro s hs
    obtain ⟨pr, hpr, h1⟩ := hcov s hs
    refine ⟨pr.2, List.mem_map.mpr ⟨pr, hpr, rfl⟩, ?_⟩
    rw [← h1]
    exact (hkey pr hpr).symm

/-- C1 witness: the invariant evaluated on a concrete two-organism list
where the second same-label result wins on score. -/
theorem C1_witness :
    ((dedup_by_os
      [⟨"a", "x OS=Felis catus OX=1", 0, 0, false, 1, "m", false, "", 0, 0⟩,
       ⟨"b", "y OS=Felis catus OX=1", 0, 0, false, 2, "m", false, "", 0, 0⟩,
       ⟨"c", "z OS=Canis lupus OX=2", 0, 0, false, 1, "m", false, "", 0, 0⟩]).map
        (fun r => extract_os r.description)).Nodup :=
  (C1_dedup_by_os_invariant
    [⟨"a", "x OS=Felis catus OX=1", 0, 0, false, 1, "m", false, "", 0, 0⟩,
     ⟨"b", "y OS=Felis catus OX=1", 0, 0, false, 2, "m", false, "", 0, 0⟩,
     ⟨"c", "z OS=Canis lupus OX=2", 0, 0, false, 1, "m", false, "", 0, 0⟩]).1

/-- C6: when the window is wider than the query, the window scan iterates
over no offsets: `sliding_window_identity_fast` returns identity `0.0`,
and the in-scan best window start stays at its `-1` sentinel (no window),
with no error. -/
theorem C6_overwide_window_zero (q t : String) (win : Nat) (h : q.length < win) :
    sliding_window_identity_fast q t win = 0 ∧ windowScan q t win = (0, -1) := by
  have hz : (((q.length : Int) - win + 1)).toNat = 0 := by omega
  constructor
  · unfold sliding_window_identity_fast
    rw [hz]
    rfl
  · unfold windowScan
    rw [hz]
    rfl

/-- C6 witness: a window of width 5 over a 3-residue query. -/
theorem C6_witness :
    "ABC".length < 5 ∧ sliding_window_identity_fast "ABC" "XYZ" 5 = 0 ∧
      windowScan "ABC" "XYZ" 5 = (0, -1) :=
  ⟨by decide, C6_overwide_window_zero "ABC" "XYZ" 5 (by decide)⟩

/-- C7: for positive window widths the best window identity lies in
`[0, 1]` (both for `sliding_window_identity_fast` and for the scan used by
`check_one_target`), and every produced composite score lies in
`[0, 1 + exactMatchBonus]`. -/
theorem C7_identity_and_score_bounds (em : EpitopeMap) (q t qs : String)
    (rec : SeqRecord) (win : Nat) (th : ℚ) (le : Bool) (r : MatchResult)
    (hwin : 1 ≤ win) :
    (0 ≤ sliding_window_identity_fast q t win ∧
      sliding_window_identity_fast q t win ≤ 1) ∧
    (0 ≤ (windowScan qs (pyUpper rec.seq) win).1 ∧
      (windowScan qs (pyUpper rec.seq) win).1 ≤ 1) ∧
    (check_one_target em qs rec win th le = Except.ok (some r) →
      0 ≤ r.identity ∧ r.identity ≤ 1 ∧ 0 ≤ r.score ∧ r.score ≤ 1 + exact6_bonus) := by
  refine ⟨sliding_window_identity_bounds q t win hwin,
    windowScan_bounds qs (pyUpper rec.seq) win hwin, ?_⟩
  intro h
  obtain ⟨h1, uid, hsp, h2, hr⟩ := check_some_inv em qs rec win th le r h
  obtain ⟨hb0, hb1⟩ := windowScan_bounds qs (pyUpper rec.seq) win hwin
  subst hr
  dsimp only [mkResult]
  refine ⟨hb0, hb1, ?_, ?_⟩ <;>
    (unfold exact6_bonus epitope_factor; split_ifs <;> linarith)

/-- C7 witness: bounds evaluated on a concrete successful scan. -/
theorem C7_witness :
    (0 ≤ sliding_window_identity_fast "AB" "ZAB" 2 ∧
      sliding_window_identity_fast "AB" "ZAB" 2 ≤ 1) ∧
    (0 ≤ (windowScan "AB" (pyUpper (SeqRecord.mk "sp|P1|X" "d1" "ZAB").seq) 2).1 ∧
      (windowScan "AB" (pyUpper (SeqRecord.mk "sp|P1|X" "d1" "ZAB").seq) 2).1 ≤ 1) ∧
    (check_one_target [] "AB" ⟨"sp|P1|X", "d1", "ZAB"⟩ 2 (1/2) false =
        Except.ok (some ⟨"sp|P1|X", "d1", 1, 1, false, 1, "global_no_epitope",
          false, "AB", 1, 0⟩) →
      0 ≤ (⟨"sp|P1|X", "d1", 1, 1, false, 1, "global_no_epitope",
          false, "AB", 1, 0⟩ : MatchResult).identity ∧
        (⟨"sp|P1|X", "d1", 1, 1, false, 1, "global_no_epitope",
          false, "AB", 1, 0⟩ : MatchResult).identity ≤ 1 ∧
        0 ≤ (⟨"sp|P1|X", "d1", 1, 1, false, 1, "global_no_epitope",
          false, "AB", 1, 0⟩ : MatchResult).score ∧
        (⟨"sp|P1|X", "d1", 1, 1, false, 1, "global_no_epitope",
          false, "AB", 1, 0⟩ : MatchResult).score ≤ 1 + exact6_bonus) :=
  C7_identity_and_score_bounds [] "AB" "ZAB" "AB" ⟨"sp|P1|X", "d1", "ZAB"⟩ 2 (1/2)
    false ⟨"sp|P1|X", "d1", 1, 1, false, 1, "global_no_epitope", false, "AB", 1, 0⟩
    (by decide)

/-- C8: for a fixed query, database, window and epitope setting, every
result returned under threshold `t2` is also returned under any
`t1 ≤ t2`: raising the threshold never enlarges the result set. -/
theorem C8_threshold_monotone (em : EpitopeMap) (query : SeqRecord)
    (db : List SeqRecord) (win : Nat) (le : Bool) (t1 t2 : ℚ)
    (hle : t1 ≤ t2) (l1 l2 : List MatchResult)
    (h1 : check_cross_parallel em query db win t1 le = Except.ok l1)
    (h2 : check_cross_parallel em query db win t2 le = Except.ok l2) :
    ∀ r ∈ l2, r ∈ l1 :=
  collect_mono em (pyUpper query.seq) win le hle db l1 l2 h1 h2

/-- C8 witness: thresholds `1/2 ≤ 3/4` on a concrete one-record database. -/
theorem C8_witness :
    (⟨"sp|P1|X", "d1", 1, 1, false, 1, "global_no_epitope",
      false, "AB", 1, 0⟩ : MatchResult) ∈
      [(⟨"sp|P1|X", "d1", 1, 1, false, 1, "global_no_epitope",
        false, "AB", 1, 0⟩ : MatchResult)] :=
  C8_threshold_monotone [] ⟨"q", "d", "AB"⟩ [⟨"sp|P1|X", "d1", "ZAB"⟩] 2 false
    (1/2) (3/4) (by norm_num)
    [⟨"sp|P1|X", "d1", 1, 1, false, 1, "global_no_epitope", false, "AB", 1, 0⟩]
    [⟨"sp|P1|X", "d1", 1, 1, false, 1, "global_no_epitope", false, "AB", 1, 0⟩]
    (by with_unfolding_all rfl) (by with_unfolding_all rfl)
    ⟨"sp|P1|X", "d1", 1, 1, false, 1, "global_no_epitope", false, "AB", 1, 0⟩
    (by simp)

/-- C2: every result returned by the database scan has raw window
identity at least the threshold; a record whose residues are
byte-identical to the query's yields null, and every returned result was
produced by a record whose residues differ from the query's. -/
theorem C2_threshold_and_self_exclusion (em : EpitopeMap) (query : SeqRecord)
    (db : List SeqRecord) (win : Nat) (th : ℚ) (le : Bool)
    (l : List MatchResult) (r : MatchResult)
    (h : check_cross_parallel em query db win th le = Except.ok l) (hr : r ∈ l) :
    th ≤ r.identity ∧
    (∀ rec ∈ db, rec.seq = query.seq →
      check_one_target em (pyUpper query.seq) rec win th le = Except.ok none) ∧
    ∃ rec ∈ db,
      check_one_target em (pyUpper query.seq) rec win th le = Except.ok (some r) ∧
      rec.seq ≠ query.seq := by
  have h' : collectResults em (pyUpper query.seq) win th le db = Except.ok l := h
  obtain ⟨rec, hmem, hrec⟩ :=
    mem_collectResults em (pyUpper query.seq) win th le db l r h' hr
  obtain ⟨h1, uid, hsp, h2, hrr⟩ :=
    check_some_inv em (pyUpper query.seq) rec win th le r hrec
  refine ⟨?_, ?_, rec, hmem, hrec, ?_⟩
  · have hid : r.identity = (windowScan (pyUpper query.seq) (pyUpper rec.seq) win).1 := by
      rw [hrr]
      rfl
    rw [hid]
    exact le_of_not_lt h2
  · intro rec' _ hseq
    exact check_self_none em (pyUpper query.seq) rec' win th le (by rw [hseq])
  · intro hseq
    exact h1 (by rw [hseq])

/-- C2 witness: a concrete one-record scan above threshold. -/
theorem C2_witness :
    check_cross_parallel [] ⟨"q", "d", "AB"⟩ [⟨"sp|P1|X", "d1", "ZAB"⟩] 2 (1/2)
        false =
      Except.ok [⟨"sp|P1|X", "d1", 1, 1, false, 1, "global_no_epitope",
        false, "AB", 1, 0⟩] ∧
    ((1/2 : ℚ) ≤ (⟨"sp|P1|X", "d1", 1, 1, false, 1, "global_no_epitope",
        false, "AB", 1, 0⟩ : MatchResult).identity ∧
      (∀ rec ∈ [(⟨"sp|P1|X", "d1", "ZAB"⟩ : SeqRecord)],
        rec.seq = (SeqRecord.mk "q" "d" "AB").seq →
        check_one_target [] (pyUpper (SeqRecord.mk "q" "d" "AB").seq) rec 2 (1/2)
          false = Except.ok none) ∧
      ∃ rec ∈ [(⟨"sp|P1|X", "d1", "ZAB"⟩ : SeqRecord)],
        check_one_target [] (pyUpper (SeqRecord.mk "q" "d" "AB").seq) rec 2 (1/2)
            false =
          Except.ok (some ⟨"sp|P1|X", "d1", 1, 1, false, 1, "global_no_epitope",
            false, "AB", 1, 0⟩) ∧
        rec.seq ≠ (SeqRecord.mk "q" "d" "AB").seq) :=
  ⟨by with_unfolding_all rfl,
    C2_threshold_and_self_exclusion [] ⟨"q", "d", "AB"⟩ [⟨"sp|P1|X", "d1", "ZAB"⟩]
      2 (1/2) false
      [⟨"sp|P1|X", "d1", 1, 1, false, 1, "global_no_epitope", false, "AB", 1, 0⟩]
      ⟨"sp|P1|X", "d1", 1, 1, false, 1, "global_no_epitope", false, "AB", 1, 0⟩
      (by with_unfolding_all rfl) (by simp)⟩

/-- C10: self-match exclusion is case-insensitive: a record whose residues
equal the query's residues up to ASCII letter case is checked against the
uppercased query and yields null, and every result of a scan traces to a
different record. -/
theorem C10_case_insensitive_self_exclusion (em : EpitopeMap)
    (query rec : SeqRecord) (win : Nat) (th : ℚ) (le : Bool)
    (h : pyUpper rec.seq = pyUpper query.seq) :
    check_one_target em (pyUpper query.seq) rec win th le = Except.ok none ∧
    ∀ (db : List SeqRecord) (l : List MatchResult),
      check_cross_parallel em query db win th le = Except.ok l →
      ∀ r ∈ l, ∃ rec' ∈ db,
        check_one_target em (pyUpper query.seq) rec' win th le =
          Except.ok (some r) ∧ rec' ≠ rec := by
  refine ⟨check_self_none em (pyUpper query.seq) rec win th le h, ?_⟩
  intro db l hdb r hr
  have hdb' : collectResults em (pyUpper query.seq) win th le db = Except.ok l := hdb
  obtain ⟨rec', hmem, hrec'⟩ :=
    mem_collectResults em (pyUpper query.seq) win th le db l r hdb' hr
  refine ⟨rec', hmem, hrec', ?_⟩
  intro heq
  rw [heq, check_self_none em (pyUpper query.seq) rec win th le h] at hrec'
  exact absurd (Except.ok.inj hrec') (by simp)

/-- C10 witness: a lowercase record matching the query up to case is
rejected. -/
theorem C10_witness :
    check_one_target [] (pyUpper (SeqRecord.mk "q" "d" "ab").seq)
      ⟨"sp|P|X", "d", "AB"⟩ 2 (1/2) false = Except.ok none :=
  (C10_case_insensitive_self_exclusion [] ⟨"q", "d", "ab"⟩ ⟨"sp|P|X", "d", "AB"⟩
    2 (1/2) false (by decide)).1

/-- C4: with epitopes enabled, a window containing one of the accession's
catalog epitopes keeps the raw identity; a window containing none — in
particular when the accession is absent and the catalog yields the empty
list — is penalized by the factor 0.8; with epitopes disabled the adjusted
identity is the raw identity and the result does not depend on the
catalog at all. -/
theorem C4_epitope_adjustment (em : EpitopeMap) (qs : String) (rec : SeqRecord)
    (win : Nat) (th : ℚ) (uid : String) (r : MatchResult)
    (hsp : (pySplitPipe rec.id).get? 1 = some uid) :
    (check_one_target em qs rec win th true = Except.ok (some r) →
      ((∃ e ∈ mapGet em uid, isSubstr e r.best_window_seq = true) →
        r.identity_adjusted = r.identity) ∧
      ((∀ e ∈ mapGet em uid, isSubstr e r.best_window_seq = false) →
        r.identity_adjusted = r.identity * epitope_factor)) ∧
    (∀ em' : EpitopeMap,
      check_one_target em qs rec win th false =
        check_one_target em' qs rec win th false) ∧
    (check_one_target em qs rec win th false = Except.ok (some r) →
      r.identity_adjusted = r.identity) := by
  refine ⟨?_, ?_, ?_⟩
  · intro h
    obtain ⟨h1, uid0, hsp0, h2, hrr⟩ := check_some_inv em qs rec win th true r h
    have huid : uid0 = uid := Option.some.inj (hsp0.symm.trans hsp)
    subst huid
    subst hrr
    constructor
    · intro hex
      have hany : windowContainsEpitope em uid0
          (pySlice qs (windowScan qs (pyUpper rec.seq) win).2
            ((windowScan qs (pyUpper rec.seq) win).2 + win)) = true := by
        unfold windowContainsEpitope
        exact List.any_eq_true.mpr hex
      simp [mkResult, hany]
    · intro hall
      have hany : windowContainsEpitope em uid0
          (pySlice qs (windowScan qs (pyUpper rec.seq) win).2
            ((windowScan qs (pyUpper rec.seq) win).2 + win)) = false := by
        unfold windowContainsEpitope
        rw [List.any_eq_false]
        intro e he
        exact ne_true_of_eq_false (hall e he)
      simp [mkResult, hany]
  · intro em'
    rfl
  · intro h
    obtain ⟨h1, uid0, hsp0, h2, hrr⟩ := check_some_inv em qs rec win th false r h
    subst hrr
    rfl

/-- C4 witness: adjusted identity equals raw identity on a concrete
epitope-covered window. -/
theorem C4_witness :
    (⟨"sp|P1|X", "d1", 1, 1, false, 1, "global_epitope_adjusted", true, "ABC",
      1, 0⟩ : MatchResult).identity_adjusted =
    (⟨"sp|P1|X", "d1", 1, 1, false, 1, "global_epitope_adjusted", true, "ABC",
      1, 0⟩ : MatchResult).identity :=
  ((C4_epitope_adjustment [("P1", ["BC"])] "ABCD" ⟨"sp|P1|X", "d1", "ZABC"⟩ 3
    (1/2) "P1"
    ⟨"sp|P1|X", "d1", 1, 1, false, 1, "global_epitope_adjusted", true, "ABC", 1, 0⟩
    (by decide)).1 (by with_unfolding_all rfl)).1 (by decide)

/-- C5: the exact short-mer flag of a produced result is set iff some
length-8 substring of the query occurs in the (uppercased) target as an
exact substring, and the composite score is the adjusted identity plus the
0.1 bonus exactly when the flag is set. -/
theorem C5_exact8mer_flag_and_bonus (em : EpitopeMap) (qs : String)
    (rec : SeqRecord) (win : Nat) (th : ℚ) (le : Bool) (r : MatchResult)
    (h : check_one_target em qs rec win th le = Except.ok (some r)) :
    (r.has_6mer = true ↔
      ∃ i, i + 8 ≤ qs.length ∧
        isSubstr (pySlice qs (i : Int) ((i : Int) + 8)) (pyUpper rec.seq) = true) ∧
    (r.has_6mer = true → r.score = r.identity_adjusted + exact6_bonus) ∧
    (r.has_6mer = false → r.score = r.identity_adjusted) := by
  obtain ⟨h1, uid, hsp, h2, hrr⟩ := check_some_inv em qs rec win th le r h
  subst hrr
  have hflag : (mkResult em qs rec win le uid
      (windowScan qs (pyUpper rec.seq) win).1
      (windowScan qs (pyUpper rec.seq) win).2).has_6mer =
      has_exact8mer qs (pyUpper rec.seq) := rfl
  have hscore : (mkResult em qs rec win le uid
      (windowScan qs (pyUpper rec.seq) win).1
      (windowScan qs (pyUpper rec.seq) win).2).score =
      (mkResult em qs rec win le uid
        (windowScan qs (pyUpper rec.seq) win).1
        (windowScan qs (pyUpper rec.seq) win).2).identity_adjusted +
      (if has_exact8mer qs (pyUpper rec.seq) then exact6_bonus else 0) := rfl
  refine ⟨?_, ?_, ?_⟩
  · rw [hflag]
    exact has_exact8mer_iff qs (pyUpper rec.seq)
  · intro h6
    rw [hflag] at h6
    rw [hscore, h6]
    simp
  · intro h6
    rw [hflag] at h6
    rw [hscore, h6]
    simp

/-- C5 witness: a concrete query of length 8 whose unique 8-mer occurs in
the target, so the bonus is added. -/
theorem C5_witness :
    ((⟨"sp|P1|X", "d1", 1, 1, true, 11/10, "global_no_epitope", false, "ABC",
        1, 1⟩ : MatchResult).score =
      (⟨"sp|P1|X", "d1", 1, 1, true, 11/10, "global_no_epitope", false, "ABC",
        1, 1⟩ : MatchResult).identity_adjusted + exact6_bonus) :=
  ((C5_exact8mer_flag_and_bonus [] "ABCDEFGH" ⟨"sp|P1|X", "d1", "XABCDEFGH"⟩ 3
    (1/2) false
    ⟨"sp|P1|X", "d1", 1, 1, true, 11/10, "global_no_epitope", false, "ABC", 1, 1⟩
    (by with_unfolding_all rfl)).2.1 (by decide))

/-- C9: a query shorter than 8 residues has no 8-mers, so the flag is
false, the 8-mer hit count is 0, and any produced result's composite score
is exactly its adjusted identity, with no error. -/
theorem C9_short_query_no_bonus (em : EpitopeMap) (qs : String)
    (rec : SeqRecord) (win : Nat) (th : ℚ) (le : Bool) (r : MatchResult)
    (hlen : qs.length < 8) :
    (∀ t : String, has_exact8mer qs t = false) ∧
    (check_one_target em qs rec win th le = Except.ok (some r) →
      r.has_6mer = false ∧ r.eightmer_hit_count = 0 ∧
        r.score = r.identity_adjusted) := by
  refine ⟨fun t => has_exact8mer_short qs t hlen, ?_⟩
  intro h
  obtain ⟨h1, uid, hsp, h2, hrr⟩ := check_some_inv em qs rec win th le r h
  subst hrr
  have hflag : (mkResult em qs rec win le uid
      (windowScan qs (pyUpper rec.seq) win).1
      (windowScan qs (pyUpper rec.seq) win).2).has_6mer =
      has_exact8mer qs (pyUpper rec.seq) := rfl
  have h6 : has_exact8mer qs (pyUpper rec.seq) = false :=
    has_exact8mer_short qs (pyUpper rec.seq) hlen
  have hcnt : (mkResult em qs rec win le uid
      (windowScan qs (pyUpper rec.seq) win).1
      (windowScan qs (pyUpper rec.seq) win).2).eightmer_hit_count =
      eightmerHitCount qs (pyUpper rec.seq) := rfl
  have hscore : (mkResult em qs rec win le uid
      (windowScan qs (pyUpper rec.seq) win).1
      (windowScan qs (pyUpper rec.seq) win).2).score =
      (mkResult em qs rec win le uid
        (windowScan qs (pyUpper rec.seq) win).1
        (windowScan qs (pyUpper rec.seq) win).2).identity_adjusted +
      (if has_exact8mer qs (pyUpper rec.seq) then exact6_bonus else 0) := rfl
  refine ⟨by rw [hflag, h6], by rw [hcnt]; exact eightmerHitCount_short qs _ hlen, ?_⟩
  rw [hscore, h6]
  simp

/-- C9 witness: a 5-residue query scoring a full window match with no
bonus. -/
theorem C9_witness :
    "ABCDE".length < 8 ∧
    ((⟨"sp|P1|X", "d1", 1, 1, false, 1, "global_no_epitope", false, "AB", 1, 0⟩
        : MatchResult).has_6mer = false ∧
      (⟨"sp|P1|X", "d1", 1, 1, false, 1, "global_no_epitope", false, "AB", 1, 0⟩
        : MatchResult).eightmer_hit_count = 0 ∧
      (⟨"sp|P1|X", "d1", 1, 1, false, 1, "global_no_epitope", false, "AB", 1, 0⟩
        : MatchResult).score =
      (⟨"sp|P1|X", "d1", 1, 1, false, 1, "global_no_epitope", false, "AB", 1, 0⟩
        : MatchResult).identity_adjusted) :=
  ⟨by decide,
    (C9_short_query_no_bonus [] "ABCDE" ⟨"sp|P1|X", "d1", "ZABCD"⟩ 2 (1/2) false
      ⟨"sp|P1|X", "d1", 1, 1, false, 1, "global_no_epitope", false, "AB", 1, 0⟩
      (by decide)).2 (by with_unfolding_all rfl)⟩

/-- C3 counterexample: with a malformed record (identifier `"BAD"` has no
second `|`-field) in the database, the scan raises instead of returning
the well-formed remainder's results; without the malformed record the same
scan returns exactly that result. -/
theorem C3_counterexample :
    check_cross_parallel [] ⟨"q", "d", "AB"⟩
        [⟨"BAD", "d0", "QQQ"⟩, ⟨"sp|P1|X", "d1", "ZAB"⟩] 2 (1/2) false =
      Except.error "IndexError: list index out of range" ∧
    check_cross_parallel [] ⟨"q", "d", "AB"⟩ [⟨"sp|P1|X", "d1", "ZAB"⟩] 2 (1/2)
        false =
      Except.ok [⟨"sp|P1|X", "d1", 1, 1, false, 1, "global_no_epitope", false,
        "AB", 1, 0⟩] :=
  ⟨by with_unfolding_all rfl, by with_unfolding_all rfl⟩

/-- C3 amended: a malformed, non-self-match record (identifier without a
second `|`-separated field) makes its worker raise an IndexError that
propagates out of the parallel scan: the scan never completes with a
result list, rather than skipping the failing candidate. -/
theorem C3_malformed_aborts_scan (em : EpitopeMap) (query : SeqRecord)
    (db : List SeqRecord) (win : Nat) (th : ℚ) (le : Bool) (bad : SeqRecord)
    (hmem : bad ∈ db) (hself : pyUpper bad.seq ≠ pyUpper query.seq)
    (hid : (pySplitPipe bad.id).get? 1 = none) :
    ∀ l, check_cross_parallel em query db win th le ≠ Except.ok l := by
  have herr : check_one_target em (pyUpper query.seq) bad win th le =
      Except.error "IndexError: list index out of range" := by
    unfold check_one_target
    rw [if_neg hself, hid]
  exact collect_no_ok_of_error em (pyUpper query.seq) win th le bad _ herr db hmem

/-- C3 witness: the amended behaviour on the concrete malformed database. -/
theorem C3_witness :
    check_cross_parallel [] ⟨"q", "d", "AB"⟩
        [⟨"BAD", "d0", "QQQ"⟩, ⟨"sp|P1|X", "d1", "ZAB"⟩] 2 (1/2) false ≠
      Except.ok [] :=
  C3_malformed_aborts_scan [] ⟨"q", "d", "AB"⟩
    [⟨"BAD", "d0", "QQQ"⟩, ⟨"sp|P1|X", "d1", "ZAB"⟩] 2 (1/2) false
    ⟨"BAD", "d0", "QQQ"⟩ (by simp) (by decide) (by decide) []

end CrossAllergen

